import Mathlib

/-!
# Verification of the multinomial distribution sampler

Shallow embedding of the code in rand_distr/src/multinomial.rs.

The IEEE-754 double type f64 is modelled by the inductive type F64 below:
NaN, the two infinities, negative zero, and finite values carried as exact
rationals. Finite arithmetic is exact-rational (no rounding or overflow of
finite intermediate values is modelled); the special-value propagation rules
(NaN poisoning, signed zeros, infinities) follow IEEE 754, which is what the
validation and sampling logic of the source branches on.

The random source and the binomial collaborator are external in the source;
the binomial draw is modelled by an oracle function
`draw : Nat → Nat → F64 → Nat` giving the count returned at loop index `i`
for `trials` and `probability p`; quantifying over all such functions covers
all random sources.
-/

/-- Model of Rust f64: NaN, plus and minus infinity, negative zero, and
finite values as exact rationals (F64.fin 0 is plus zero). -/
inductive F64 where
  | nan : F64
  | inf : F64
  | negInf : F64
  | negZero : F64
  | fin (q : ℚ) : F64
deriving DecidableEq

namespace F64

/-- Numeric value of a finite F64 (junk 0 on specials, which the callers
never hit); negative zero has value 0. -/
def finVal : F64 → ℚ
  | fin q => q
  | _ => 0

/-- IEEE comparison x < y: false whenever either side is NaN; negative zero
compares equal to zero. Models the Rust `<` on f64. -/
def lt : F64 → F64 → Bool
  | nan, _ => false
  | _, nan => false
  | negInf, negInf => false
  | negInf, _ => true
  | _, negInf => false
  | inf, _ => false
  | _, inf => true
  | x, y => decide (x.finVal < y.finVal)

/-- IEEE comparison x <= y: false whenever either side is NaN. Models the
Rust `<=` on f64. -/
def le : F64 → F64 → Bool
  | nan, _ => false
  | _, nan => false
  | negInf, _ => true
  | _, negInf => false
  | _, inf => true
  | inf, _ => false
  | x, y => decide (x.finVal ≤ y.finVal)

/-- IEEE equality x == y: NaN is equal to nothing, -0.0 == 0.0. Models the
Rust `==` on f64. -/
def ieeeEq : F64 → F64 → Bool
  | nan, _ => false
  | _, nan => false
  | inf, inf => true
  | inf, _ => false
  | _, inf => false
  | negInf, negInf => true
  | negInf, _ => false
  | _, negInf => false
  | x, y => decide (x.finVal = y.finVal)

/-- IEEE addition on the model: NaN poisons, inf + (-inf) = NaN,
(-0.0) + (-0.0) = -0.0, and otherwise exact rational addition (a finite sum
that is exactly 0 gives +0.0, as in round-to-nearest). -/
def add : F64 → F64 → F64
  | nan, _ => nan
  | _, nan => nan
  | inf, negInf => nan
  | negInf, inf => nan
  | inf, _ => inf
  | _, inf => inf
  | negInf, _ => negInf
  | _, negInf => negInf
  | negZero, negZero => negZero
  | x, y => fin (x.finVal + y.finVal)

/-- IEEE negation: flips the sign bit, so -(+0.0) = -0.0. -/
def neg : F64 → F64
  | nan => nan
  | inf => negInf
  | negInf => inf
  | negZero => fin 0
  | fin q => if q = 0 then negZero else fin (-q)

/-- IEEE subtraction x - y = x + (-y). -/
def sub (x y : F64) : F64 := x.add y.neg

/-- Sign bit of a value, used for the sign rules of division. -/
def isNegSign : F64 → Bool
  | negInf => true
  | negZero => true
  | fin q => decide (q < 0)
  | _ => false

/-- IEEE division on the model: NaN poisons, inf/inf = NaN, 0/0 = NaN,
x/0 = signed infinity, x/inf = signed zero, and exact rational division on
finite values with the IEEE sign rule for zero results. -/
def div : F64 → F64 → F64
  | nan, _ => nan
  | _, nan => nan
  | inf, inf => nan
  | inf, negInf => nan
  | negInf, inf => nan
  | negInf, negInf => nan
  | inf, y => if y.isNegSign then negInf else inf
  | negInf, y => if y.isNegSign then inf else negInf
  | x, inf => if x.isNegSign then negZero else fin 0
  | x, negInf => if x.isNegSign then fin 0 else negZero
  | x, y =>
    if y.finVal = 0 then
      if x.finVal = 0 then nan
      else if x.isNegSign = y.isNegSign then inf else negInf
    else
      if x.finVal / y.finVal = 0 then
        (if x.isNegSign = y.isNegSign then fin 0 else negZero)
      else fin (x.finVal / y.finVal)

/-- Rust f64::min: if one argument is NaN the other is returned; otherwise
the smaller one. Models `(a).min(b)`. -/
def fmin (x y : F64) : F64 :=
  if x = nan then y
  else if y = nan then x
  else if le x y then x else y

end F64

deriving instance DecidableEq for Except

namespace Multinomial

/-- Error type returned from Multinomial::new (source enum `Error`). -/
inductive Error where
  | ProbabilityNegative : Error
  | ProbabilityZero : Error
  | ProbabilityInfinity : Error
deriving DecidableEq

/-- Rust `weights.iter().sum::<f64>()`: left fold of IEEE addition starting
from 0.0. -/
def sumF (ws : List F64) : F64 := ws.foldl F64.add (F64.fin 0)

/-- Embedding of the source function `normalize`: reject a negative weight
(the Rust test is `x < 0.0`), reject an exactly zero sum, reject an infinite
sum, and otherwise divide every weight by the sum. The in-place mutation of
the Rust code is rendered by returning the new weight list. -/
def normalize (weights : List F64) : Except Error (List F64) :=
  if weights.any (fun x => F64.lt x (F64.fin 0)) then
    .error .ProbabilityNegative
  else
    let sum := sumF weights
    if F64.ieeeEq sum (F64.fin 0) then
      .error .ProbabilityZero
    else if F64.ieeeEq sum F64.inf then
      .error .ProbabilityInfinity
    else
      .ok (weights.map (fun x => F64.div x sum))

/-- The MultinomialConst sampler: draw count `n` and normalized weights.
The compile-time constant K of the source is the length of the weight list. -/
structure MultinomialConst where
  n : Nat
  weights : List F64
deriving DecidableEq

/-- Embedding of MultinomialConst::new: normalize the weights and store them
with the draw count. The `K == 0` panic of the source is a type-level fatal
contract violation, not a returned error, and is not modelled; note that an
empty weight list can in fact never construct, since its sum is 0.0. -/
def MultinomialConst.new (n : Nat) (weights : List F64) :
    Except Error MultinomialConst :=
  match normalize weights with
  | .error e => .error e
  | .ok ws => .ok ⟨n, ws⟩

/-- Embedding of the `for i in 0..(K - 1)` loop of
`Distribution::<[u64; K]>::sample`. `ws` is the not-yet-visited part of the
first K-1 weights, `i` the loop index, and the result is the list of counts
for those categories, the final `remaining_n`, and the list of probabilities
passed to `Binomial::new` (in order), which instruments the collaborator
call sites. A `break` leaves the untouched slots of the Rust array at 0,
rendered by `List.replicate _ 0`. -/
def sampleGo (draw : Nat → Nat → F64 → Nat) :
    Nat → List F64 → F64 → Nat → List Nat × Nat × List F64
  | _, [], _, remaining_n => ([], remaining_n, [])
  | i, w :: rest, remaining_p, remaining_n =>
    if F64.le remaining_p (F64.fin 0) then
      (List.replicate (rest.length + 1) 0, remaining_n, [])
    else
      let p := F64.fmin (F64.div w remaining_p) (F64.fin 1)
      let c := draw i remaining_n p
      if remaining_n - c = 0 then
        (c :: List.replicate rest.length 0, 0, [p])
      else
        let res := sampleGo draw (i + 1) rest (F64.sub remaining_p w)
          (remaining_n - c)
        (c :: res.1, res.2.1, p :: res.2.2)

/-- Embedding of MultinomialConst::sample: run the loop over the first K-1
weights starting from remaining_p = 1.0 and remaining_n = n, then assign the
final remaining_n to the last category. -/
def MultinomialConst.sample (m : MultinomialConst)
    (draw : Nat → Nat → F64 → Nat) : List Nat :=
  let res := sampleGo draw 0 (m.weights.take (m.weights.length - 1))
    (F64.fin 1) m.n
  res.1 ++ [res.2.1]

/-- The probabilities handed to Binomial::new over a whole sample call, in
order of the loop iterations that are actually reached. -/
def MultinomialConst.sampleProbs (m : MultinomialConst)
    (draw : Nat → Nat → F64 → Nat) : List F64 :=
  (sampleGo draw 0 (m.weights.take (m.weights.length - 1))
    (F64.fin 1) m.n).2.2

/-- C1: the source checks a weight `x` for negativity with `x < 0.0`, which
is false for NaN; a NaN weight therefore passes validation, the sum is NaN,
neither `sum == 0.0` nor `sum == INFINITY` holds for NaN, and construction
succeeds with NaN stored weights — contradicting both the claim and the
doc of Error::ProbabilityNegative ("There is a negative weight or Nan"). -/
theorem c1_nan_weight_is_accepted :
    MultinomialConst.new 1 [F64.nan] =
      Except.ok ⟨1, [F64.nan]⟩ := by
  norm_num [MultinomialConst.new, normalize, sumF, F64.add, F64.div, F64.lt,
    F64.ieeeEq, F64.finVal, F64.isNegSign]

/-- C3 counterexample: the array [-1.0, inf] has an infinite individual
weight (and infinite sum), yet new fails with ProbabilityNegative, not with
ProbabilityInfinity, because the negativity check runs first. -/
theorem c3_counterexample :
    MultinomialConst.new 5 [F64.fin (-1), F64.inf] =
      Except.error Error.ProbabilityNegative ∧
    Error.ProbabilityNegative ≠ Error.ProbabilityInfinity := by
  refine ⟨?_, by decide⟩
  norm_num [MultinomialConst.new, normalize, sumF, F64.add, F64.div, F64.lt,
    F64.ieeeEq, F64.finVal, F64.isNegSign]

/-- C3 amended: if no raw weight is negative (under the IEEE `<` used by the
source) and the IEEE sum of the raw weights is infinite, then new fails with
the Overflow error ProbabilityInfinity. -/
theorem c3_infinite_sum_overflow (n : Nat) (ws : List F64)
    (hneg : ∀ w ∈ ws, F64.lt w (F64.fin 0) = false)
    (hsum : sumF ws = F64.inf) :
    MultinomialConst.new n ws = Except.error Error.ProbabilityInfinity := by
  have hany : ws.any (fun x => F64.lt x (F64.fin 0)) = false := by
    simp only [List.any_eq_false]
    intro w hw
    simp [hneg w hw]
  unfold MultinomialConst.new normalize
  rw [hany, hsum]
  rfl

/-- C3 amended, witness: new(5, [inf, 1.0]) fails with ProbabilityInfinity. -/
theorem c3_witness :
    MultinomialConst.new 5 [F64.inf, F64.fin 1] =
      Except.error Error.ProbabilityInfinity :=
  c3_infinite_sum_overflow 5 [F64.inf, F64.fin 1]
    (by
      intro w hw
      simp only [List.mem_cons, List.not_mem_nil, or_false] at hw
      rcases hw with rfl | rfl
      · rfl
      · norm_num [F64.lt, F64.finVal])
    (by norm_num [sumF, F64.add, F64.finVal])

/-- C6: constructing with raw weights [2.0, 2.0] and with [1.0, 1.0] yields
samplers whose stored weight vectors are identical, both [0.5, 0.5]
(2.0/4.0 and 1.0/2.0 are both exactly 0.5). -/
theorem c6_normalization_idempotence (n : Nat) :
    MultinomialConst.new n [F64.fin 2, F64.fin 2] =
      Except.ok ⟨n, [F64.fin (1/2), F64.fin (1/2)]⟩ ∧
    MultinomialConst.new n [F64.fin 1, F64.fin 1] =
      Except.ok ⟨n, [F64.fin (1/2), F64.fin (1/2)]⟩ := by
  have h2 : normalize [F64.fin 2, F64.fin 2] =
      Except.ok [F64.fin (1/2), F64.fin (1/2)] := by
    norm_num [normalize, sumF, F64.add, F64.div, F64.lt, F64.ieeeEq,
      F64.finVal, F64.isNegSign]
  have h1 : normalize [F64.fin 1, F64.fin 1] =
      Except.ok [F64.fin (1/2), F64.fin (1/2)] := by
    norm_num [normalize, sumF, F64.add, F64.div, F64.lt, F64.ieeeEq,
      F64.finVal, F64.isNegSign]
  unfold MultinomialConst.new
  rw [h1, h2]
  exact ⟨rfl, rfl⟩

/-- C4: the three validation checks of new are decided in a fixed order:
a negative weight always wins (whatever the sum is), then the exact-zero-sum
check, then the infinite-sum check, and only when all three pass does new
return the sampler with the weights divided by the sum. -/
theorem c4_validation_order :
    (∀ (n : Nat) (ws : List F64),
      ws.any (fun x => F64.lt x (F64.fin 0)) = true →
      MultinomialConst.new n ws = Except.error Error.ProbabilityNegative) ∧
    (∀ (n : Nat) (ws : List F64),
      ws.any (fun x => F64.lt x (F64.fin 0)) = false →
      F64.ieeeEq (sumF ws) (F64.fin 0) = true →
      MultinomialConst.new n ws = Except.error Error.ProbabilityZero) ∧
    (∀ (n : Nat) (ws : List F64),
      ws.any (fun x => F64.lt x (F64.fin 0)) = false →
      F64.ieeeEq (sumF ws) (F64.fin 0) = false →
      F64.ieeeEq (sumF ws) F64.inf = true →
      MultinomialConst.new n ws = Except.error Error.ProbabilityInfinity) ∧
    (∀ (n : Nat) (ws : List F64),
      ws.any (fun x => F64.lt x (F64.fin 0)) = false →
      F64.ieeeEq (sumF ws) (F64.fin 0) = false →
      F64.ieeeEq (sumF ws) F64.inf = false →
      MultinomialConst.new n ws =
        Except.ok ⟨n, ws.map (fun x => F64.div x (sumF ws))⟩) := by
  refine ⟨fun n ws ha => ?_, fun n ws ha hz => ?_,
    fun n ws ha hz hi => ?_, fun n ws ha hz hi => ?_⟩
  · simp [MultinomialConst.new, normalize, ha]
  · simp [MultinomialConst.new, normalize, ha, hz]
  · simp [MultinomialConst.new, normalize, ha, hz, hi]
  · simp [MultinomialConst.new, normalize, ha, hz, hi]

/-- C4, witness: an input with both a negative weight and a zero sum fails
with ProbabilityNegative; an all-zero input fails with ProbabilityZero; an
infinite-sum input with no negative weight fails with ProbabilityInfinity;
and a valid input constructs with normalized weights. -/
theorem c4_witness :
    MultinomialConst.new 1 [F64.fin (-1), F64.fin 1] =
      Except.error Error.ProbabilityNegative ∧
    MultinomialConst.new 1 [F64.fin 0, F64.fin 0] =
      Except.error Error.ProbabilityZero ∧
    MultinomialConst.new 1 [F64.inf] =
      Except.error Error.ProbabilityInfinity ∧
    MultinomialConst.new 1 [F64.fin 2, F64.fin 2] =
      Except.ok ⟨1, [F64.fin (1/2), F64.fin (1/2)]⟩ := by
  refine ⟨c4_validation_order.1 1 _ ?_,
    c4_validation_order.2.1 1 _ ?_ ?_,
    c4_validation_order.2.2.1 1 _ ?_ ?_ ?_,
    (c4_validation_order.2.2.2 1 _ ?_ ?_ ?_).trans ?_⟩ <;>
    norm_num [sumF, F64.add, F64.div, F64.lt, F64.ieeeEq, F64.finVal,
      F64.isNegSign]

/-- C10: a raw weight of -0.0 does not trigger the negativity check (IEEE
-0.0 < 0.0 is false), and construction succeeds for any weight list whose
entries are each -0.0 or a non-negative finite value and whose sum is a
positive finite value. -/
theorem c10_negzero_accepted :
    F64.lt F64.negZero (F64.fin 0) = false ∧
    ∀ (n : Nat) (ws : List F64) (q : ℚ),
      (∀ w ∈ ws, w = F64.negZero ∨ ∃ r : ℚ, 0 ≤ r ∧ w = F64.fin r) →
      sumF ws = F64.fin q → 0 < q →
      ∃ m, MultinomialConst.new n ws = Except.ok m := by
  constructor
  · norm_num [F64.lt, F64.finVal]
  · intro n ws q hw hsum hq
    have ha : ws.any (fun x => F64.lt x (F64.fin 0)) = false := by
      simp only [List.any_eq_false]
      intro w hmem
      rcases hw w hmem with rfl | ⟨r, hr, rfl⟩
      · norm_num [F64.lt, F64.finVal]
      · simp [F64.lt, F64.finVal, not_lt.mpr hr]
    have hz : F64.ieeeEq (sumF ws) (F64.fin 0) = false := by
      rw [hsum]
      simp [F64.ieeeEq, F64.finVal, ne_of_gt hq]
    have hi : F64.ieeeEq (sumF ws) F64.inf = false := by
      rw [hsum]; rfl
    exact ⟨_, c4_validation_order.2.2.2 n ws ha hz hi⟩

/-- C10, witness: new(5, [-0.0, 1.0]) succeeds. -/
theorem c10_witness :
    ∃ m, MultinomialConst.new 5 [F64.negZero, F64.fin 1] = Except.ok m := by
  refine c10_negzero_accepted.2 5 _ 1 ?_ ?_ one_pos
  · intro w hmem
    simp only [List.mem_cons, List.not_mem_nil, or_false] at hmem
    rcases hmem with rfl | rfl
    · exact Or.inl rfl
    · exact Or.inr ⟨1, by norm_num⟩
  · norm_num [sumF, F64.add, F64.finVal]

/-- The loop of sample never loses draws: over any suffix of the first K-1
weights, the counts it assigns plus the final remaining_n equal the
remaining_n it started from, provided the binomial collaborator returns at
most its trial count. -/
theorem sampleGo_sum (draw : Nat → Nat → F64 → Nat)
    (hdraw : ∀ i t p, draw i t p ≤ t) (ws : List F64) :
    ∀ (i : Nat) (rp : F64) (rn : Nat),
      ((sampleGo draw i ws rp rn).1).sum + (sampleGo draw i ws rp rn).2.1
        = rn := by
  induction ws with
  | nil => intro i rp rn; simp [sampleGo]
  | cons w rest ih =>
    intro i rp rn
    simp only [sampleGo]
    split
    · simp [List.sum_replicate]
    · split
      · rename_i hz
        have hc := hdraw i rn (F64.fmin (F64.div w rp) (F64.fin 1))
        simp only [List.sum_cons, List.sum_replicate, smul_eq_mul,
          mul_zero, add_zero]
        omega
      · rename_i hz
        have hc := hdraw i rn (F64.fmin (F64.div w rp) (F64.fin 1))
        have := ih (i + 1) (F64.sub rp w)
          (rn - draw i rn (F64.fmin (F64.div w rp) (F64.fin 1)))
        simp only [List.sum_cons]
        omega

/-- Construction keeps the draw count: new n ws = ok m implies m.n = n. -/
theorem new_n_eq (n : Nat) (ws : List F64) (m : MultinomialConst)
    (hm : MultinomialConst.new n ws = Except.ok m) : m.n = n := by
  unfold MultinomialConst.new at hm
  cases hnorm : normalize ws with
  | error e => rw [hnorm] at hm; cases hm
  | ok ws2 => rw [hnorm] at hm; cases hm; rfl

/-- Normalization keeps the number of categories. -/
theorem normalize_length (ws ws2 : List F64)
    (h : normalize ws = Except.ok ws2) : ws2.length = ws.length := by
  simp only [normalize] at h
  split at h
  · cases h
  · split at h
    · cases h
    · split at h
      · cases h
      · cases h; simp

/-- Construction keeps the number of categories. -/
theorem new_weights_length (n : Nat) (ws : List F64) (m : MultinomialConst)
    (hm : MultinomialConst.new n ws = Except.ok m) :
    m.weights.length = ws.length := by
  unfold MultinomialConst.new at hm
  cases hnorm : normalize ws with
  | error e => rw [hnorm] at hm; cases hm
  | ok ws2 => rw [hnorm] at hm; cases hm; exact normalize_length ws ws2 hnorm

/-- C2: for every successfully constructed sampler and every draw oracle
that respects the binomial contract (count at most trials), the K entries
returned by sample sum exactly to the draw count n. -/
theorem c2_sum_invariant (n : Nat) (ws : List F64) (m : MultinomialConst)
    (draw : Nat → Nat → F64 → Nat)
    (hm : MultinomialConst.new n ws = Except.ok m)
    (hdraw : ∀ i t p, draw i t p ≤ t) :
    (m.sample draw).sum = n := by
  unfold MultinomialConst.sample
  rw [List.sum_append, List.sum_singleton, sampleGo_sum draw hdraw]
  exact new_n_eq n ws m hm

/-- C2, witness: the sampler from new(4, [1.0, 3.0]) with an oracle that
always returns 0 successes yields entries summing to 4. -/
theorem c2_witness :
    (MultinomialConst.sample ⟨4, [F64.fin (1/4), F64.fin (3/4)]⟩
      (fun _ _ _ => 0)).sum = 4 :=
  c2_sum_invariant 4 [F64.fin 1, F64.fin 3] _ _
    (by norm_num [MultinomialConst.new, normalize, sumF, F64.add, F64.div,
      F64.lt, F64.ieeeEq, F64.finVal, F64.isNegSign])
    (fun _ _ _ => Nat.zero_le _)

/-- C9: for K = 1 the loop over 0..K-1 is empty, no binomial draw is made
(the probability trace is empty), and sample returns [n] for every oracle,
whatever the single weight was. -/
theorem c9_single_category (n : Nat) (ws : List F64) (m : MultinomialConst)
    (draw : Nat → Nat → F64 → Nat)
    (hlen : ws.length = 1)
    (hm : MultinomialConst.new n ws = Except.ok m) :
    m.sample draw = [n] ∧ m.sampleProbs draw = [] := by
  have hl : m.weights.length = 1 := (new_weights_length n ws m hm).trans hlen
  have hn : m.n = n := new_n_eq n ws m hm
  unfold MultinomialConst.sample MultinomialConst.sampleProbs
  rw [hl]
  simp [sampleGo, hn]

/-- C9, witness: the K = 1 sampler from new(3, [7.0]) returns [3] and draws
no binomial whatever the oracle answers. -/
theorem c9_witness :
    MultinomialConst.sample ⟨3, [F64.fin 1]⟩ (fun _ _ _ => 5) = [3] ∧
    MultinomialConst.sampleProbs ⟨3, [F64.fin 1]⟩ (fun _ _ _ => 5) = [] :=
  c9_single_category 3 [F64.fin 7] _ _ rfl
    (by norm_num [MultinomialConst.new, normalize, sumF, F64.add, F64.div,
      F64.lt, F64.ieeeEq, F64.finVal, F64.isNegSign])

/-- C5: the sampler from new(10, [1.0, 0.0, 0.0]) stores weights
[1.0, 0.0, 0.0]; at category 0 the conditional probability is
min(1.0/1.0, 1.0) = 1.0, so an oracle honouring the binomial law at
probability 1 (all trials succeed) returns all 10 draws, remaining_n drops
to 0, the loop breaks, and the sample is [10, 0, 0] for every oracle. -/
theorem c5_degenerate_single_mass (draw : Nat → Nat → F64 → Nat)
    (hdraw : ∀ i t, draw i t (F64.fin 1) = t) (m : MultinomialConst)
    (hm : MultinomialConst.new 10 [F64.fin 1, F64.fin 0, F64.fin 0] =
      Except.ok m) :
    m.sample draw = [10, 0, 0] := by
  have hnew : MultinomialConst.new 10 [F64.fin 1, F64.fin 0, F64.fin 0] =
      Except.ok ⟨10, [F64.fin 1, F64.fin 0, F64.fin 0]⟩ := by
    norm_num [MultinomialConst.new, normalize, sumF, F64.add, F64.div,
      F64.lt, F64.ieeeEq, F64.finVal, F64.isNegSign]
  rw [hnew] at hm
  cases hm
  norm_num [MultinomialConst.sample, sampleGo, F64.le, F64.fmin, F64.div,
    F64.finVal, F64.isNegSign, hdraw]

/-- C5, witness: with the oracle that always answers the full trial count,
the sampler built from new(10, [1.0, 0.0, 0.0]) samples [10, 0, 0]. -/
theorem c5_witness :
    MultinomialConst.sample ⟨10, [F64.fin 1, F64.fin 0, F64.fin 0]⟩
      (fun _ t _ => t) = [10, 0, 0] :=
  c5_degenerate_single_mass (fun _ t _ => t) (fun _ _ => rfl) _
    (by norm_num [MultinomialConst.new, normalize, sumF, F64.add, F64.div,
      F64.lt, F64.ieeeEq, F64.finVal, F64.isNegSign])

/-- The values a successful construction can store as weights: NaN (see the
C1 defect) or an IEEE non-negative value (including -0.0 and +inf). -/
def wfWeight (w : F64) : Prop :=
  w = F64.nan ∨ F64.le (F64.fin 0) w = true

/-- Folding IEEE addition over weights none of which is IEEE-negative,
starting from a class member, stays in the class {NaN, +inf, fin s with
s ≥ 0}. -/
theorem foldl_add_classify (ws : List F64)
    (h : ∀ w ∈ ws, F64.lt w (F64.fin 0) = false) :
    ∀ acc : F64,
      (acc = F64.nan ∨ acc = F64.inf ∨ ∃ s : ℚ, 0 ≤ s ∧ acc = F64.fin s) →
      (ws.foldl F64.add acc = F64.nan ∨ ws.foldl F64.add acc = F64.inf ∨
        ∃ s : ℚ, 0 ≤ s ∧ ws.foldl F64.add acc = F64.fin s) := by
  induction ws with
  | nil => intro acc hacc; simpa using hacc
  | cons w rest ih =>
    intro acc hacc
    have hw := h w (List.mem_cons_self w rest)
    have hrest : ∀ x ∈ rest, F64.lt x (F64.fin 0) = false :=
      fun x hx => h x (List.mem_cons_of_mem w hx)
    rw [List.foldl_cons]
    apply ih hrest
    rcases hacc with rfl | rfl | ⟨s, hs, rfl⟩
    · cases w <;> simp [F64.add]
    · cases w
      · simp [F64.add]
      · right; left; rfl
      · exact absurd hw (by simp [F64.lt])
      · right; left; rfl
      · right; left; rfl
    · cases w with
      | nan => simp [F64.add]
      | inf => right; left; rfl
      | negInf => exact absurd hw (by simp [F64.lt])
      | negZero =>
        right; right
        exact ⟨s + 0, by simpa using hs, rfl⟩
      | fin q =>
        have hq : 0 ≤ q := by
          have : ¬(q < 0) := by simpa [F64.lt, F64.finVal] using hw
          linarith
        right; right
        exact ⟨s + q, by positivity, rfl⟩

/-- The sum of a weight list with no IEEE-negative entry is NaN, +inf, or a
non-negative finite value. -/
theorem sumF_classify (ws : List F64)
    (h : ∀ w ∈ ws, F64.lt w (F64.fin 0) = false) :
    sumF ws = F64.nan ∨ sumF ws = F64.inf ∨
      ∃ s : ℚ, 0 ≤ s ∧ sumF ws = F64.fin s :=
  foldl_add_classify ws h (F64.fin 0) (Or.inr (Or.inr ⟨0, le_refl 0, rfl⟩))

/-- Dividing a non-IEEE-negative weight by a positive finite sum gives a
well-formed stored weight. -/
theorem div_wf (x : F64) (hx : F64.lt x (F64.fin 0) = false) (s : ℚ)
    (hs : 0 < s) : wfWeight (F64.div x (F64.fin s)) := by
  have hsne : s ≠ 0 := ne_of_gt hs
  have hsneg : ¬(s < 0) := by linarith
  cases x with
  | nan => exact Or.inl rfl
  | inf =>
    right
    simp [F64.div, F64.isNegSign, F64.finVal, hsneg, F64.le]
  | negInf => exact absurd hx (by simp [F64.lt])
  | negZero =>
    right
    simp [F64.div, F64.isNegSign, F64.finVal, hsne, hsneg, F64.le]
  | fin q =>
    have hq : 0 ≤ q := by
      have : ¬(q < 0) := by simpa [F64.lt, F64.finVal] using hx
      linarith
    right
    by_cases hqz : q / s = 0
    · simp [F64.div, F64.isNegSign, F64.finVal, hsne, hsneg, hqz, F64.le,
        not_lt.mpr hq]
    · have hqs : 0 ≤ q / s := div_nonneg hq hs.le
      simp [F64.div, F64.isNegSign, F64.finVal, hsne, hqz, F64.le, hqs]

/-- Every weight stored by a successful normalize is well formed: NaN (the
C1 defect path, when the sum is NaN) or IEEE non-negative. -/
theorem normalize_wf (ws ws2 : List F64)
    (h : normalize ws = Except.ok ws2) : ∀ w ∈ ws2, wfWeight w := by
  simp only [normalize] at h
  split at h
  · cases h
  · rename_i hneg
    rw [Bool.not_eq_true, List.any_eq_false] at hneg
    have hneg2 : ∀ w ∈ ws, F64.lt w (F64.fin 0) = false := by
      intro w hw
      simpa using hneg w hw
    split at h
    · cases h
    · rename_i hz
      rw [Bool.not_eq_true] at hz
      split at h
      · cases h
      · rename_i hi
        rw [Bool.not_eq_true] at hi
        cases h
        intro w hw
        simp only [List.mem_map] at hw
        obtain ⟨x, hx, rfl⟩ := hw
        rcases sumF_classify ws hneg2 with hnan | hinf | ⟨s, hs, hsum⟩
        · rw [hnan]
          left
          cases x <;> rfl
        · rw [hinf] at hi
          cases hi
        · rw [hsum]
          rw [hsum] at hz
          have hsz : s ≠ 0 := by
            intro hcon
            rw [hcon] at hz
            simp [F64.ieeeEq, F64.finVal] at hz
          exact div_wf x (hneg2 x hx) s (lt_of_le_of_ne hs (Ne.symm hsz))

/-- Every weight stored by a successful construction is well formed. -/
theorem new_weights_wf (n : Nat) (ws : List F64) (m : MultinomialConst)
    (hm : MultinomialConst.new n ws = Except.ok m) :
    ∀ w ∈ m.weights, wfWeight w := by
  unfold MultinomialConst.new at hm
  cases hnorm : normalize ws with
  | error e => rw [hnorm] at hm; cases hm
  | ok ws2 => rw [hnorm] at hm; cases hm; exact normalize_wf ws ws2 hnorm

/-- The clamped conditional probability min(w / remaining_p, 1.0) lies in
[0, 1] under IEEE comparison whenever the loop guard remaining_p <= 0.0 was
false and the weight is well formed; in particular a NaN ratio is clamped
to 1.0 by Rust f64::min. -/
theorem prob_in_range (w rp : F64)
    (hrp : F64.le rp (F64.fin 0) = false) (hw : wfWeight w) :
    F64.le (F64.fin 0) (F64.fmin (F64.div w rp) (F64.fin 1)) = true ∧
    F64.le (F64.fmin (F64.div w rp) (F64.fin 1)) (F64.fin 1) = true := by
  have h01 : F64.le (F64.fin 0) (F64.fin 1) = true := by
    simp [F64.le, F64.finVal]
  have h00 : F64.le (F64.fin 0) (F64.fin 0) = true := by
    simp [F64.le, F64.finVal]
  have h11 : F64.le (F64.fin 1) (F64.fin 1) = true := by
    simp [F64.le, F64.finVal]
  cases rp with
  | negInf => simp [F64.le] at hrp
  | negZero => simp [F64.le, F64.finVal] at hrp
  | nan =>
    have hdiv : F64.div w F64.nan = F64.nan := by cases w <;> rfl
    rw [hdiv]
    exact ⟨by simp [F64.fmin, h01], by simp [F64.fmin, h11]⟩
  | inf =>
    rcases hw with rfl | hw
    · exact ⟨by simp [F64.fmin, F64.div, h01], by simp [F64.fmin, F64.div, h11]⟩
    · cases w with
      | nan => exact ⟨by simp [F64.fmin, F64.div, h01], by simp [F64.fmin, F64.div, h11]⟩
      | negInf => simp [F64.le] at hw
      | inf =>
        exact ⟨by simp [F64.fmin, F64.div, h01], by simp [F64.fmin, F64.div, h11]⟩
      | negZero =>
        constructor <;>
          simp [F64.fmin, F64.div, F64.isNegSign, F64.le, F64.finVal]
      | fin q =>
        have hq : ¬(q < 0) := by simpa [F64.le, F64.finVal, not_lt] using hw
        constructor <;>
          simp [F64.fmin, F64.div, F64.isNegSign, F64.le, F64.finVal, hq]
  | fin r =>
    have hr : 0 < r := by
      have : ¬(r ≤ 0) := by simpa [F64.le, F64.finVal] using hrp
      linarith
    have hrne : r ≠ 0 := ne_of_gt hr
    have hrneg : ¬(r < 0) := by linarith
    rcases hw with rfl | hw
    · exact ⟨by simp [F64.fmin, F64.div, h01], by simp [F64.fmin, F64.div, h11]⟩
    · cases w with
      | nan => exact ⟨by simp [F64.fmin, F64.div, h01], by simp [F64.fmin, F64.div, h11]⟩
      | negInf => simp [F64.le] at hw
      | inf =>
        have hdiv : F64.div F64.inf (F64.fin r) = F64.inf := by
          simp [F64.div, F64.isNegSign, F64.finVal, hrneg]
        rw [hdiv]
        have : F64.fmin F64.inf (F64.fin 1) = F64.fin 1 := by
          simp [F64.fmin, F64.le]
        rw [this]
        exact ⟨h01, h11⟩
      | negZero =>
        have hdiv : F64.div F64.negZero (F64.fin r) = F64.negZero := by
          simp [F64.div, F64.isNegSign, F64.finVal, hrne, hrneg]
        rw [hdiv]
        have : F64.fmin F64.negZero (F64.fin 1) = F64.negZero := by
          simp [F64.fmin, F64.le, F64.finVal]
        rw [this]
        constructor <;> simp [F64.le, F64.finVal]
      | fin q =>
        have hq : 0 ≤ q := by
          have : ¬(q < 0) := by simpa [F64.le, F64.finVal, not_lt] using hw
          linarith
        by_cases hqz : q / r = 0
        · have hdiv : F64.div (F64.fin q) (F64.fin r) = F64.fin 0 := by
            simp [F64.div, F64.isNegSign, F64.finVal, hrne, hqz, hrneg,
              not_lt.mpr hq]
          rw [hdiv]
          have : F64.fmin (F64.fin 0) (F64.fin 1) = F64.fin 0 := by
            simp [F64.fmin, F64.le, F64.finVal]
          rw [this]
          exact ⟨h00, h01⟩
        · have hdiv : F64.div (F64.fin q) (F64.fin r) = F64.fin (q / r) := by
            simp [F64.div, F64.finVal, hrne, hqz]
          rw [hdiv]
          have hqs : 0 ≤ q / r := div_nonneg hq hr.le
          by_cases hle : q / r ≤ 1
          · have : F64.fmin (F64.fin (q / r)) (F64.fin 1) = F64.fin (q / r) := by
              simp [F64.fmin, F64.le, F64.finVal, hle]
            rw [this]
            exact ⟨by simp [F64.le, F64.finVal, hqs], by simp [F64.le, F64.finVal, hle]⟩
          · have : F64.fmin (F64.fin (q / r)) (F64.fin 1) = F64.fin 1 := by
              simp [F64.fmin, F64.le, F64.finVal, hle]
            rw [this]
            exact ⟨h01, h11⟩

/-- Every probability the loop passes to Binomial::new is in [0, 1], for
any start state, as long as the weights it walks are well formed. -/
theorem sampleGo_probs_wf (draw : Nat → Nat → F64 → Nat) (ws : List F64)
    (hws : ∀ w ∈ ws, wfWeight w) :
    ∀ (i : Nat) (rp : F64) (rn : Nat),
      ∀ p ∈ (sampleGo draw i ws rp rn).2.2,
        F64.le (F64.fin 0) p = true ∧ F64.le p (F64.fin 1) = true := by
  induction ws with
  | nil => intro i rp rn p hp; simp [sampleGo] at hp
  | cons w rest ih =>
    intro i rp rn p hp
    simp only [sampleGo] at hp
    split at hp
    · simp at hp
    · rename_i hrp
      rw [Bool.not_eq_true] at hrp
      split at hp
      · simp only [List.mem_singleton] at hp
        subst hp
        exact prob_in_range w rp hrp (hws w (List.mem_cons_self w rest))
      · simp only [List.mem_cons] at hp
        rcases hp with rfl | hp
        · exact prob_in_range w rp hrp (hws w (List.mem_cons_self w rest))
        · exact ih (fun x hx => hws x (List.mem_cons_of_mem w hx)) _ _ _ p hp

/-- C7: for every successfully constructed sampler and every oracle, every
probability handed to the binomial constructor over a whole sample call
satisfies 0 <= p and p <= 1 under IEEE comparison, so the failure branch of
Binomial::new (the expect at the call site) is unreachable. -/
theorem c7_probability_in_range (n : Nat) (ws : List F64)
    (m : MultinomialConst) (draw : Nat → Nat → F64 → Nat)
    (hm : MultinomialConst.new n ws = Except.ok m) :
    (m.sampleProbs draw).all
      (fun p => F64.le (F64.fin 0) p && F64.le p (F64.fin 1)) = true := by
  rw [List.all_eq_true]
  intro p hp
  have hwf : ∀ w ∈ m.weights, wfWeight w := new_weights_wf n ws m hm
  have htake : ∀ w ∈ m.weights.take (m.weights.length - 1), wfWeight w :=
    fun w hw => hwf w ((List.take_sublist _ _).subset hw)
  have hr := sampleGo_probs_wf draw _ htake 0 (F64.fin 1) m.n p hp
  simp [hr.1, hr.2]

/-- C7, witness: the sampler from new(3, [1.0, 1.0]) passes only in-range
probabilities to the binomial constructor. -/
theorem c7_witness :
    (MultinomialConst.sampleProbs ⟨3, [F64.fin (1/2), F64.fin (1/2)]⟩
      (fun _ _ _ => 0)).all
      (fun p => F64.le (F64.fin 0) p && F64.le p (F64.fin 1)) = true :=
  c7_probability_in_range 3 [F64.fin 1, F64.fin 1] _ _
    (by norm_num [MultinomialConst.new, normalize, sumF, F64.add, F64.div,
      F64.lt, F64.ieeeEq, F64.finVal, F64.isNegSign])

/-- C8: if the guard remaining_p <= 0.0 holds at the start of an iteration
the loop stops before drawing, assigns 0 to every remaining non-final
category and keeps remaining_n for the final one; if instead the guard
fails and the draw empties remaining_n, the loop stops right after it, the
later non-final categories get 0 and the final one gets 0 = remaining_n;
and sample always gives the final category the loop's final remaining_n. -/
theorem c8_early_termination (draw : Nat → Nat → F64 → Nat) (i : Nat)
    (w : F64) (rest : List F64) (rp : F64) (rn : Nat) :
    (F64.le rp (F64.fin 0) = true →
      sampleGo draw i (w :: rest) rp rn =
        (List.replicate (rest.length + 1) 0, rn, [])) ∧
    (F64.le rp (F64.fin 0) = false →
      rn - draw i rn (F64.fmin (F64.div w rp) (F64.fin 1)) = 0 →
      sampleGo draw i (w :: rest) rp rn =
        (draw i rn (F64.fmin (F64.div w rp) (F64.fin 1)) ::
          List.replicate rest.length 0, 0,
          [F64.fmin (F64.div w rp) (F64.fin 1)])) ∧
    (∀ m : MultinomialConst,
      m.sample draw =
        (sampleGo draw 0 (m.weights.take (m.weights.length - 1))
          (F64.fin 1) m.n).1 ++
        [(sampleGo draw 0 (m.weights.take (m.weights.length - 1))
          (F64.fin 1) m.n).2.1]) := by
  refine ⟨fun h => ?_, fun h hz => ?_, fun m => rfl⟩
  · simp [sampleGo, h]
  · simp [sampleGo, h, hz]

/-- C8, witness: with remaining_p = 0.0 the loop of a two-category suffix
stops at once, and a draw that takes all 7 remaining trials stops the loop
with the final category getting 0. -/
theorem c8_witness :
    sampleGo (fun _ _ _ => 1) 0 [F64.fin 1, F64.fin 1] (F64.fin 0) 5 =
      (List.replicate 2 0, 5, []) ∧
    sampleGo (fun _ _ _ => 7) 0 [F64.fin 1] (F64.fin 1) 7 =
      (7 :: List.replicate 0 0, 0,
        [F64.fmin (F64.div (F64.fin 1) (F64.fin 1)) (F64.fin 1)]) :=
  ⟨(c8_early_termination (fun _ _ _ => 1) 0 (F64.fin 1) [F64.fin 1]
      (F64.fin 0) 5).1 (by norm_num [F64.le, F64.finVal]),
   (c8_early_termination (fun _ _ _ => 7) 0 (F64.fin 1) []
      (F64.fin 1) 7).2.1 (by norm_num [F64.le, F64.finVal]) rfl⟩

end Multinomial
